import Mathlib

/-
Verification of the stw222-bot schedule reconciliation code (src/bot.js).

The JavaScript source is shallowly embedded below.  Strings are modelled as
lists of characters, thrown exceptions as the error case of Except, and a
JavaScript Date value as an Option Int: some t is a valid date holding the
instant t in minutes since the Unix epoch, none is an Invalid Date (NaN).
All event times in the source are minute granular, so minutes suffice.
-/

namespace StwBot

/-- Character strings, modelled as lists of characters. -/
abbrev Str := List Char

/-- Coerce a Lean string literal into the model representation. -/
def str (s : String) : Str := s.toList

/-- Model of the JavaScript String.prototype.split with a one-character
separator: always returns a non-empty list of fragments. -/
def splitOnChar (sep : Char) : Str → List Str
  | [] => [[]]
  | c :: cs =>
    match splitOnChar sep cs with
    | [] => [[]]
    | r :: rs => if c = sep then [] :: r :: rs else (c :: r) :: rs

/-- Model of Array.prototype.join with a one-character separator. -/
def joinChar (sep : Char) : List Str → Str
  | [] => []
  | [s] => s
  | s :: rest => s ++ sep :: joinChar sep rest

/-- Model of String.prototype.trim, restricted to the ASCII whitespace that
can occur in the strings the source manipulates. -/
def jsTrim (s : Str) : Str :=
  ((s.dropWhile Char.isWhitespace).reverse.dropWhile Char.isWhitespace).reverse

/-- Model of String.prototype.padStart(2, the zero character). -/
def padStart2 (s : Str) : Str :=
  if s.length ≥ 2 then s else List.replicate (2 - s.length) '0' ++ s

/-- A non-empty all-digit string. -/
def isDigits (s : Str) : Bool := !s.isEmpty && s.all Char.isDigit

/-- Numeric value of an all-digit string. -/
def digitsToNat (s : Str) : Nat :=
  s.foldl (fun n c => n * 10 + (c.toNat - 48)) 0

/-- Days from the Unix epoch to the civil date y-m-d, by the standard
era-based conversion; the formula extrapolates out-of-range days of the
month exactly as the MakeDay operation of the JavaScript specification. -/
def daysFromCivil (y m d : Int) : Int :=
  let y2 := if m ≤ 2 then y - 1 else y
  let era := y2 / 400
  let yoe := y2 - era * 400
  let mp := if m ≤ 2 then m + 9 else m - 3
  let doy := (153 * mp + 2) / 5 + (d - 1)
  let doe := yoe * 365 + yoe / 4 - yoe / 100 + doy
  era * 146097 + doe - 719468

/-- Components (year, month, day, hour, minute) of the ISO date-time string
the source assembles, namely dStr ++ T ++ tStr ++ seconds 00 and offset
-05:00.  The result is some components exactly when the V8 ISO parser
accepts the assembled string: dStr must be a plain YYYY-MM-DD digit form and
tStr a plain HH:MM digit form (once a time separator T follows an ISO date,
V8 commits to the ISO grammar and a malformed time yields an Invalid Date
rather than a legacy-parser fallback). -/
def parseIsoParts (dStr tStr : Str) : Option (Int × Int × Int × Int × Int) :=
  match splitOnChar '-' dStr, splitOnChar ':' tStr with
  | [y, mo, d], [h, mi] =>
    if isDigits y && y.length == 4 && isDigits mo && mo.length == 2
        && isDigits d && d.length == 2 && isDigits h && h.length == 2
        && isDigits mi && mi.length == 2 then
      let yv : Int := digitsToNat y
      let mov : Int := digitsToNat mo
      let dv : Int := digitsToNat d
      let hv : Int := digitsToNat h
      let miv : Int := digitsToNat mi
      if 1 ≤ mov && mov ≤ 12 && 1 ≤ dv && dv ≤ 31 && miv ≤ 59
          && (hv ≤ 23 || (hv == 24 && miv == 0)) then
        some (yv, mov, dv, hv, miv)
      else none
    else none
  | _, _ => none

/-- Naive wall-clock value of parsed components, in minutes. -/
def wallMinutes (p : Int × Int × Int × Int × Int) : Int :=
  daysFromCivil p.1 p.2.1 p.2.2.1 * 1440 + p.2.2.2.1 * 60 + p.2.2.2.2

/-- Model of new Date(dStr ++ T ++ tStr ++ the constant suffix :00-05:00)
as built by the source: the fixed -05:00 offset shifts the wall clock five
hours east of UTC, hence plus 300 minutes. -/
def jsNewDateIso (dStr tStr : Str) : Option Int :=
  (parseIsoParts dStr tStr).map (fun p => wallMinutes p + 300)

/-! Data model of the schedule document, embedded from the JSON shape the
source reads and the fields it accesses. -/

/-- One raw stream event of the remote schedule document. -/
structure StreamEvent where
  date : Str
  startTime : Str
  title : Str
  description : Option Str
  image : Option Str
  category : Str
deriving DecidableEq, Repr

/-- The streamer profile of the schedule document. -/
structure Streamer where
  displayName : Str
  description : Str
deriving DecidableEq, Repr

/-- A category entry of the schedule document; the source reads its color. -/
structure Category where
  color : Nat
deriving DecidableEq, Repr

/-- The schedule document, as returned by fetchSchedule once parsed. -/
structure Schedule where
  timezone : Str
  streamer : Streamer
  categories : List (Str × Category)
  streams : List StreamEvent
deriving DecidableEq, Repr

/-- A stream event together with the dateTime field the source spreads onto
it; none models an Invalid Date. -/
structure ResolvedStream extends StreamEvent where
  dateTime : Option Int
deriving DecidableEq, Repr

/-- Embedding of parseStreamDateTime: the date components are destructured
from a split on dashes and the month and day are zero padded; a date with
fewer than three dash-separated components leaves the month or day
undefined, so calling padStart on it throws, which the error case records.
The padded date, the raw startTime and the fixed -05:00 suffix are handed
to the Date constructor. -/
def parseStreamDateTime (s : StreamEvent) : Except Unit (Option Int) :=
  match splitOnChar '-' s.date with
  | year :: month :: day :: _ =>
    .ok (jsNewDateIso (year ++ '-' :: padStart2 month ++ '-' :: padStart2 day) s.startTime)
  | _ => .error ()

/-- Resolve every event of a list, propagating a thrown exception exactly as
the map callback of the source does. -/
def resolveAll : List StreamEvent → Except Unit (List ResolvedStream)
  | [] => .ok []
  | s :: rest =>
    match parseStreamDateTime s with
    | .error e => .error e
    | .ok dt =>
      match resolveAll rest with
      | .error e => .error e
      | .ok rs => .ok (ResolvedStream.mk s dt :: rs)

/-- Strict comparison used by the sort callback of getUpcomingStreams; the
callback subtracts the two dateTime values, and after the upcoming filter
both are valid. -/
def dateTimeLt (a b : ResolvedStream) : Bool :=
  a.dateTime.getD 0 < b.dateTime.getD 0

/-- Stable insertion of an element into a sorted list, placing it before the
first element it does not strictly exceed. -/
def insertByLt (lt : α → α → Bool) (x : α) : List α → List α
  | [] => [x]
  | y :: ys => if lt y x then y :: insertByLt lt x ys else x :: y :: ys

/-- Stable sort, modelling the stable Array.prototype.sort of the engine
with a numeric comparator: for a total comparator the stable result is
unique, so insertion sort reproduces it. -/
def sortByLt (lt : α → α → Bool) : List α → List α
  | [] => []
  | x :: xs => insertByLt lt x (sortByLt lt xs)

/-- Embedding of getUpcomingStreams: resolve every event, keep those whose
dateTime is strictly later than now (an Invalid Date compares false), and
sort them by dateTime. -/
def getUpcomingStreams (sched : Schedule) (now : Int) :
    Except Unit (List ResolvedStream) :=
  match resolveAll sched.streams with
  | .error e => .error e
  | .ok resolved =>
    .ok (sortByLt dateTimeLt (resolved.filter (fun r =>
      match r.dateTime with
      | some t => now < t
      | none => false)))

/-- Embedding of getStreamKey: the unique key of a stream is its raw date
and startTime joined by a pipe. -/
def getStreamKey (s : StreamEvent) : Str := s.date ++ '|' :: s.startTime

/-- Embedding of the categoryEmojis table. -/
def categoryEmojis : List (Str × Str) :=
  [ (str "atc", str "<:radar:1455791581268541556>")
  , (str "flying", str "<:airplane:1455791579032977671>")
  , (str "minecraft", str "<:minecraft:1455791577816502384>")
  , (str "other", str "<:tooltipquestion:1455791783538724914>") ]

/-- First-match association lookup, modelling property access on a plain
object keyed by strings. -/
def lookupAssoc (table : List (Str × α)) (key : Str) : Option α :=
  (table.find? (fun p => p.fst == key)).map Prod.snd

/-- Model of the JavaScript or-else on an optional string field: undefined
and the empty string are both falsy. -/
def jsOrDefault (v : Option Str) (d : Str) : Str :=
  match v with
  | some s => if s.isEmpty then d else s
  | none => d

/-- Model of charAt(0).toUpperCase() + slice(1). -/
def capitalizeFirst : Str → Str
  | [] => []
  | c :: cs => c.toUpper :: cs

/-- The embed the source builds for one stream, restricted to the data the
reconciliation logic and the claims observe: the rendered text fields, the
timestamp in seconds, and the footer carrying the stream key. -/
structure Embed where
  title : Str
  color : Nat
  description : Str
  timestampSeconds : Int
  categoryField : Str
  footerText : Option Str
  image : Option Str
deriving DecidableEq, Repr

/-- Embedding of createStreamEmbed.  The category falls back to the entry
named other (schedules missing both are outside the model, where the source
would throw on an undefined color).  The footer text is the display name, a
spaced pipe, and the stream key. -/
def createStreamEmbed (r : ResolvedStream) (streamer : Streamer)
    (categories : List (Str × Category)) : Embed :=
  let category := (lookupAssoc categories r.category).getD
    ((lookupAssoc categories (str "other")).getD ⟨0⟩)
  let emoji := (lookupAssoc categoryEmojis r.category).getD (str "🎮")
  let timestamp := r.dateTime.getD 0 * 60
  let streamKey := getStreamKey r.toStreamEvent
  { title := emoji ++ ' ' :: r.title
    color := category.color
    description := jsOrDefault r.description (str "No description available")
    timestampSeconds := timestamp
    categoryField := capitalizeFirst r.category
    footerText := some (streamer.displayName ++ ' ' :: '|' :: ' ' :: streamKey)
    image := match r.image with
      | some s => if s.isEmpty then none else some s
      | none => none }

/-- A channel message as the reconciliation code observes it. -/
structure ChannelMessage where
  authorId : Nat
  createdTimestamp : Int
  embeds : List Embed
deriving DecidableEq, Repr

/-- Embedding of extractStreamKeyFromMessage: read the footer of the first
embed, require a pipe, split on pipes, and return everything after the
first fragment rejoined and trimmed. -/
def extractStreamKeyFromMessage (m : ChannelMessage) : Option Str :=
  match m.embeds with
  | [] => none
  | e :: _ =>
    match e.footerText with
    | none => none
    | some footer =>
      if !footer.contains '|' then none
      else if (splitOnChar '|' footer).length < 2 then none
      else some (jsTrim (joinChar '|' ((splitOnChar '|' footer).drop 1)))

/-- Embedding of parseStreamKeyToDate.  The outer Option is the explicit
null return for a missing date or time fragment; the inner Option is the
Date value, none being an Invalid Date.  A date fragment with fewer than
three dash-separated components makes padStart throw, recorded as the error
case. -/
def parseStreamKeyToDate (key : Str) : Except Unit (Option (Option Int)) :=
  if ((splitOnChar '|' key).getD 0 []).isEmpty
      || ((splitOnChar '|' key).getD 1 []).isEmpty then .ok none
  else
    match splitOnChar '-' ((splitOnChar '|' key).getD 0 []) with
    | y :: mo :: d :: _ =>
      .ok (some (jsNewDateIso (y ++ '-' :: padStart2 mo ++ '-' :: padStart2 d)
        ((splitOnChar '|' key).getD 1 [])))
    | _ => .error ()

/-! The refresh reconciliation pass of postScheduleToChannel, split into its
pure scan and the operations it performs on the channel. -/

/-- What the scan loop of postScheduleToChannel decides for one message:
skip it, delete it, or keep it recording its key. -/
inductive MsgVerdict where
  | skip
  | delete
  | keep (key : Str)
deriving DecidableEq, Repr

/-- The per-message decision of the scan loop of postScheduleToChannel: a
non-bot message is skipped; a bot message without an extractable key, with
a key parsing to null or to a past date, or with a key absent from the
upcoming set is deleted; otherwise it is kept and its key recorded.  A
throw from parseStreamKeyToDate propagates. -/
def classifyMessage (botId : Nat) (upcomingKeys : List Str) (now : Int)
    (m : ChannelMessage) : Except Unit MsgVerdict :=
  if m.authorId == botId then
    match extractStreamKeyFromMessage m with
    | none => .ok .delete
    | some key =>
      match parseStreamKeyToDate key with
      | .error e => .error e
      | .ok pk =>
        match pk with
        | none => .ok .delete
        | some dv =>
          if (match dv with
              | some t => decide (t < now)
              | none => false) then .ok .delete
          else if !upcomingKeys.contains key then .ok .delete
          else .ok (.keep key)
  else .ok .skip

/-- The scan loop of postScheduleToChannel over the fetched messages,
collecting the messages to delete and the keys of the kept records; a
thrown exception anywhere aborts the whole pass. -/
def refreshScan (botId : Nat) (upcomingKeys : List Str) (now : Int) :
    List ChannelMessage → Except Unit (List ChannelMessage × List Str)
  | [] => .ok ([], [])
  | m :: rest =>
    match classifyMessage botId upcomingKeys now m with
    | .error e => .error e
    | .ok v =>
      match refreshScan botId upcomingKeys now rest with
      | .error e => .error e
      | .ok (dels, keys) =>
        match v with
        | .skip => .ok (dels, keys)
        | .delete => .ok (m :: dels, keys)
        | .keep key => .ok (dels, key :: keys)

/-- The messages a refresh pass deletes and the streams it posts. -/
structure RefreshPlan where
  messagesToDelete : List ChannelMessage
  newStreams : List ResolvedStream
deriving DecidableEq, Repr

/-- The pure core of postScheduleToChannel: resolve the schedule, scan the
fetched messages, and keep as new exactly the upcoming streams whose key
was not recorded as existing. -/
def refreshPlan (botId : Nat) (sched : Schedule) (now : Int)
    (messages : List ChannelMessage) : Except Unit RefreshPlan :=
  match getUpcomingStreams sched now with
  | .error e => .error e
  | .ok upcoming =>
    match refreshScan botId (upcoming.map (fun r => getStreamKey r.toStreamEvent))
        now messages with
    | .error e => .error e
    | .ok (dels, existingKeys) =>
      .ok ⟨dels, upcoming.filter (fun r =>
        !existingKeys.contains (getStreamKey r.toStreamEvent))⟩

/-- One mutation the bot performs on the channel. -/
inductive ChannelOp where
  | clearAll
  | deleteMsg (m : ChannelMessage)
  | postEmbed (e : Embed)
  | postText (s : Str)
deriving DecidableEq, Repr

/-- The channel operations of one refresh cycle of postScheduleToChannel.
The schedule fetch precedes every mutation, so a failed fetch or a thrown
scan yields no operations; otherwise the pass deletes the planned messages
and then posts the embeds of the new streams in order. -/
def refreshOps (botId : Nat) (fetchResult : Except Unit Schedule) (now : Int)
    (messages : List ChannelMessage) : List ChannelOp :=
  match fetchResult with
  | .error _ => []
  | .ok sched =>
    match refreshPlan botId sched now messages with
    | .error _ => []
    | .ok plan =>
      plan.messagesToDelete.map ChannelOp.deleteMsg ++
        plan.newStreams.map (fun r =>
          ChannelOp.postEmbed (createStreamEmbed r sched.streamer sched.categories))

/-- The channel operations of hardResetChannel.  The source clears the
channel before fetching the schedule, so the clear happens even when the
fetch then fails or an event throws while resolving; on success it posts
every upcoming stream in order, or a notice when none are upcoming.  The
function takes no channel state at all: the reset is unconditional. -/
def hardResetOps (fetchResult : Except Unit Schedule) (now : Int) : List ChannelOp :=
  ChannelOp.clearAll ::
    match fetchResult with
    | .error _ => []
    | .ok sched =>
      match getUpcomingStreams sched now with
      | .error _ => []
      | .ok ups =>
        if ups.isEmpty then [ChannelOp.postText (str "No upcoming streams scheduled!")]
        else ups.map (fun r =>
          ChannelOp.postEmbed (createStreamEmbed r sched.streamer sched.categories))

/-- The message posted when a stream is rendered into the channel. -/
def renderMessage (botId : Nat) (r : ResolvedStream) (streamer : Streamer)
    (categories : List (Str × Category)) (createdTimestamp : Int) : ChannelMessage :=
  { authorId := botId
    createdTimestamp := createdTimestamp
    embeds := [createStreamEmbed r streamer categories] }

/-! The channel mutator clearChannel.  The source loops: fetch a page of up
to one hundred messages, stop when it is empty, bulk delete the messages
younger than two weeks in one call, delete the rest individually with
failures swallowed, and fetch again.  Deletion failures are modelled by
oracles; fuel bounds the recursion because a persistently undeletable page
makes the source loop forever. -/

/-- One delete call clearChannel issues. -/
inductive ClearOp where
  | bulk (msgs : List ChannelMessage)
  | single (m : ChannelMessage)
deriving DecidableEq, Repr

/-- The bulk-delete age ceiling, in milliseconds. -/
def twoWeeksMs : Int := 14 * 24 * 60 * 60 * 1000

/-- The subset of the fetched page younger than the bulk-delete ceiling,
handed to one bulkDelete call. -/
def clearRecent (now : Int) (ch : List ChannelMessage) : List ChannelMessage :=
  (ch.take 100).filter (fun m => now - m.createdTimestamp < twoWeeksMs)

/-- The subset of the fetched page at or beyond the bulk-delete ceiling,
deleted one message at a time. -/
def clearOld (now : Int) (ch : List ChannelMessage) : List ChannelMessage :=
  (ch.take 100).filter (fun m => twoWeeksMs ≤ now - m.createdTimestamp)

/-- The messages still in the channel after one clearChannel iteration:
a message survives unless its bulk call succeeded or its individual delete
succeeded; a failed delete is swallowed and the message simply stays. -/
def clearSurvivors (singleOk : ChannelMessage → Bool)
    (bulkOk : List ChannelMessage → Bool) (now : Int)
    (ch : List ChannelMessage) : List ChannelMessage :=
  ch.filter (fun m =>
    !((clearRecent now ch).contains m && bulkOk (clearRecent now ch) ||
      ((clearOld now ch).contains m && singleOk m)))

/-- Embedding of the clearChannel loop.  Returns the delete calls issued,
the remaining channel, and whether the loop exited by fetching an empty
page within the given fuel.  singleOk tells which individual deletes
succeed, bulkOk whether a bulk call succeeds; either way a failure is
swallowed and the loop continues, so the fuel bounds the recursion of a
loop the source never exits while undeletable messages remain. -/
def clearChannelRun (singleOk : ChannelMessage → Bool)
    (bulkOk : List ChannelMessage → Bool) (now : Int) :
    Nat → List ChannelMessage → List ClearOp × List ChannelMessage × Bool
  | 0, ch => ([], ch, false)
  | fuel + 1, ch =>
    if (ch.take 100).isEmpty then ([], ch, true)
    else
      ((if (clearRecent now ch).isEmpty then []
        else [ClearOp.bulk (clearRecent now ch)]) ++
        (clearOld now ch).map ClearOp.single ++
        (clearChannelRun singleOk bulkOk now fuel
          (clearSurvivors singleOk bulkOk now ch)).1,
       (clearChannelRun singleOk bulkOk now fuel
         (clearSurvivors singleOk bulkOk now ch)).2.1,
       (clearChannelRun singleOk bulkOk now fuel
         (clearSurvivors singleOk bulkOk now ch)).2.2)

/-! Spec-modelled reference normalizer, used to compare the source time
handling against the specified behaviour. -/

/-- Day of the week of a civil date, zero meaning Sunday. -/
def dayOfWeek (y m d : Int) : Int := (daysFromCivil y m d + 4) % 7

/-- Modelled from the spec: the day of the month of the second Sunday of
March, when United States daylight saving begins at two in the morning. -/
def secondSundayOfMarch (y : Int) : Int := 8 + (7 - dayOfWeek y 3 8) % 7

/-- Modelled from the spec: the day of the month of the first Sunday of
November, when United States daylight saving ends at two in the morning. -/
def firstSundayOfNovember (y : Int) : Int := 1 + (7 - dayOfWeek y 11 1) % 7

/-- Modelled from the spec: whether the reference timezone
America/New_York observes daylight saving at the given local wall-clock
moment, under the rules in force since 2007. -/
def nyIsDST (y m d minuteOfDay : Int) : Bool :=
  if m < 3 || 11 < m then false
  else if 3 < m && m < 11 then true
  else if m == 3 then
    let ss := secondSundayOfMarch y
    ss < d || (d == ss && 120 ≤ minuteOfDay)
  else
    let fs := firstSundayOfNovember y
    d < fs || (d == fs && minuteOfDay < 120)

/-- Modelled from the spec: the signed minutes the reference timezone lies
west of UTC at the given local moment. -/
def nyOffsetMinutes (y m d minuteOfDay : Int) : Int :=
  if nyIsDST y m d minuteOfDay then 240 else 300

/-- Modelled from the spec: the true absolute instant of a wall-clock
moment in the reference timezone, obtained by adding the daylight-aware
offset instead of a fixed one.  Input handling mirrors the assembled ISO
string of the source so the two functions are comparable pointwise. -/
def specInstant (dStr tStr : Str) : Option Int :=
  (parseIsoParts dStr tStr).map (fun p =>
    wallMinutes p + nyOffsetMinutes p.1 p.2.1 p.2.2.1 (p.2.2.2.1 * 60 + p.2.2.2.2))

/-- Modelled from the spec: the normalize contract of the time normalizer,
with the same padding and exception behaviour as the source but resolving
the instant through the reference timezone calendar rules. -/
def normalizeSpec (dateStr timeStr : Str) : Except Unit (Option Int) :=
  match splitOnChar '-' dateStr with
  | year :: month :: day :: _ =>
    .ok (specInstant (year ++ '-' :: padStart2 month ++ '-' :: padStart2 day) timeStr)
  | _ => .error ()

/-! Concrete fixtures used by the closed theorems below. -/

/-- Resolve one event the way getUpcomingStreams does, for building
concrete rendered messages. -/
def resolveEvent (e : StreamEvent) : ResolvedStream :=
  match parseStreamDateTime e with
  | .ok dt => ⟨e, dt⟩
  | .error _ => ⟨e, none⟩

/-- A streamer profile. -/
def sampleStreamer : Streamer := ⟨str "STW222", str "Live ATC and flying"⟩

/-- A categories table holding the flying and other entries. -/
def sampleCategories : List (Str × Category) :=
  [(str "flying", ⟨5793266⟩), (str "other", ⟨9807270⟩)]

/-- A well-formed upcoming event. -/
def eventA : StreamEvent :=
  { date := str "2025-12-20", startTime := str "18:00"
    title := str "Friday Night Ops", description := some (str "Approach control")
    image := none, category := str "flying" }

/-- The event with only its title changed. -/
def eventARenamed : StreamEvent := { eventA with title := str "Renamed Show" }

/-- An event whose date has a single dash-free component, making the
destructured month undefined so padStart throws. -/
def eventBadDate : StreamEvent :=
  { date := str "2025", startTime := str "09:00"
    title := str "Broken", description := none, image := none, category := str "other" }

/-- An event whose date components are not numeric: the assembled ISO
string is rejected, yielding an Invalid Date rather than a throw. -/
def eventUnparsable : StreamEvent :=
  { date := str "abcd-ef-gh", startTime := str "09:00"
    title := str "Odd", description := none, image := none, category := str "other" }

/-- A schedule holding the one well-formed event. -/
def sampleSchedule : Schedule :=
  ⟨str "America/New_York", sampleStreamer, sampleCategories, [eventA]⟩

/-- A reference now, in minutes since the epoch, before eventA. -/
def now0 : Int := 29000000

/-- Decidable equality of Except results, for evaluating the embedded
functions inside closed proofs. -/
instance {e a : Type} [DecidableEq e] [DecidableEq a] : DecidableEq (Except e a) :=
  fun x y =>
    match x, y with
    | .error u, .error v =>
      match decEq u v with
      | .isTrue h => .isTrue (by rw [h])
      | .isFalse h => .isFalse (by simp [h])
    | .ok u, .ok v =>
      match decEq u v with
      | .isTrue h => .isTrue (by rw [h])
      | .isFalse h => .isFalse (by simp [h])
    | .error _, .ok _ => .isFalse (by simp)
    | .ok _, .error _ => .isFalse (by simp)

/-! Auxiliary lemmas about the embedded string primitives. -/

theorem splitOnChar_ne_nil (sep : Char) (s : Str) : splitOnChar sep s ≠ [] := by
  cases s with
  | nil => simp [splitOnChar]
  | cons c cs =>
    rw [splitOnChar]
    rcases h : splitOnChar sep cs with _ | ⟨r, rs⟩
    · simp
    · by_cases hc : c = sep <;> simp [hc]

theorem joinChar_splitOnChar (sep : Char) (s : Str) :
    joinChar sep (splitOnChar sep s) = s := by
  induction s with
  | nil => rfl
  | cons c cs ih =>
    rw [splitOnChar]
    rcases h : splitOnChar sep cs with _ | ⟨r, rs⟩
    · exact absurd h (splitOnChar_ne_nil sep cs)
    · rw [h] at ih
      by_cases hc : c = sep
      · subst hc
        simpa [joinChar] using ih
      · simp only [if_neg hc]
        cases rs with
        | nil => simpa [joinChar] using ih
        | cons r2 rs2 => simpa [joinChar] using ih

theorem splitOnChar_single {sep : Char} {s : Str} (h : sep ∉ s) :
    splitOnChar sep s = [s] := by
  induction s with
  | nil => rfl
  | cons c cs ih =>
    rw [List.mem_cons, not_or] at h
    have hcs : ¬c = sep := fun hc => h.1 hc.symm
    rw [splitOnChar, ih h.2]
    simp [hcs]

theorem splitOnChar_append {sep : Char} {a : Str} (b : Str) (h : sep ∉ a) :
    splitOnChar sep (a ++ sep :: b) = a :: splitOnChar sep b := by
  induction a with
  | nil =>
    simp only [List.nil_append]
    rw [splitOnChar]
    rcases hb : splitOnChar sep b with _ | ⟨r, rs⟩
    · exact absurd hb (splitOnChar_ne_nil sep b)
    · simp
  | cons c cs ih =>
    rw [List.mem_cons, not_or] at h
    have hcs : ¬c = sep := fun hc => h.1 hc.symm
    rw [List.cons_append, splitOnChar, ih h.2]
    simp [hcs]

theorem splitOnChar_first_fragment (sep : Char) :
    ∀ (s : Str) (f : Str) (rest : List Str),
      splitOnChar sep s = f :: rest → ∃ tail, s = f ++ tail := by
  intro s
  induction s with
  | nil =>
    intro f rest h
    simp only [splitOnChar] at h
    cases h
    exact ⟨[], rfl⟩
  | cons c cs ih =>
    intro f rest h
    rw [splitOnChar] at h
    rcases h2 : splitOnChar sep cs with _ | ⟨r, rs⟩
    · exact absurd h2 (splitOnChar_ne_nil sep cs)
    · rw [h2] at h
      dsimp only at h
      by_cases hc : c = sep
      · rw [if_pos hc] at h
        cases h
        exact ⟨c :: cs, rfl⟩
      · rw [if_neg hc] at h
        obtain ⟨tail, htail⟩ := ih r rs h2
        cases h
        exact ⟨tail, by rw [List.cons_append, ← htail]⟩

theorem digit_ne_pipe {c : Char} (h : c.isDigit = true) : c ≠ '|' := by
  intro hc
  subst hc
  simp [Char.isDigit] at h

theorem digit_not_whitespace {c : Char} (h : c.isDigit = true) :
    c.isWhitespace = false := by
  by_contra hw
  rw [Bool.not_eq_false] at hw
  simp [Char.isWhitespace] at hw
  rcases hw with ((rfl | rfl) | rfl) | rfl <;> simp [Char.isDigit] at h

theorem jsTrim_space_cons {key : Str} {c d : Char}
    (hh : key.head? = some c) (hc : c.isWhitespace = false)
    (hl : key.getLast? = some d) (hd : d.isWhitespace = false) :
    jsTrim (' ' :: key) = key := by
  unfold jsTrim
  have h1 : List.dropWhile Char.isWhitespace (' ' :: key) =
      List.dropWhile Char.isWhitespace key := by
    rw [List.dropWhile_cons]
    simp
  have h2 : List.dropWhile Char.isWhitespace key = key := by
    cases key with
    | nil => rfl
    | cons x xs =>
      have hx : x = c := by simpa using hh
      subst hx
      rw [List.dropWhile_cons, hc]
      simp
  have h3 : List.dropWhile Char.isWhitespace key.reverse = key.reverse := by
    cases hr : key.reverse with
    | nil => rfl
    | cons x xs =>
      have hx : x = d := by
        have := List.head?_reverse key
        rw [hr, hl] at this
        simpa using this
      subst hx
      rw [List.dropWhile_cons, hd]
      simp
  rw [h1, h2, h3, List.reverse_reverse]

theorem mem_insertByLt {α : Type} {lt : α → α → Bool} {x y : α} {l : List α} :
    y ∈ insertByLt lt x l ↔ y = x ∨ y ∈ l := by
  induction l with
  | nil => simp [insertByLt]
  | cons z zs ih =>
    rw [insertByLt]
    by_cases h : lt z x
    · rw [if_pos h]
      simp only [List.mem_cons, ih]
      try tauto
    · rw [if_neg h]
      simp only [List.mem_cons]
      try tauto

theorem mem_sortByLt {α : Type} {lt : α → α → Bool} {y : α} {l : List α} :
    y ∈ sortByLt lt l ↔ y ∈ l := by
  induction l with
  | nil => simp [sortByLt]
  | cons x xs ih => simp [sortByLt, mem_insertByLt, ih]

theorem resolveAll_mem {streams : List StreamEvent} {rs : List ResolvedStream}
    (h : resolveAll streams = .ok rs) :
    ∀ r ∈ rs, r.toStreamEvent ∈ streams ∧
      parseStreamDateTime r.toStreamEvent = .ok r.dateTime := by
  induction streams generalizing rs with
  | nil =>
    rw [resolveAll] at h
    cases h
    simp
  | cons s rest ih =>
    rw [resolveAll] at h
    rcases h1 : parseStreamDateTime s with e | dt
    · rw [h1] at h
      cases h
    · rw [h1] at h
      rcases h2 : resolveAll rest with e | rs2
      · rw [h2] at h
        cases h
      · rw [h2] at h
        cases h
        intro r hr
        rcases List.mem_cons.mp hr with hr1 | hr2
        · subst hr1
          exact ⟨List.mem_cons_self s rest, h1⟩
        · have hb := ih h2 r hr2
          exact ⟨List.mem_cons_of_mem s hb.1, hb.2⟩

theorem resolveAll_error_iff {streams : List StreamEvent} :
    resolveAll streams = .error () ↔
      ∃ s ∈ streams, parseStreamDateTime s = .error () := by
  induction streams with
  | nil => simp [resolveAll]
  | cons s rest ih =>
    rw [resolveAll]
    rcases h1 : parseStreamDateTime s with e | dt
    · cases e
      simp only [h1]
      constructor
      · intro _
        exact ⟨s, List.mem_cons_self s rest, h1⟩
      · intro _
        trivial
    · rcases h2 : resolveAll rest with e | rs2
      · cases e
        simp only [h1, h2]
        constructor
        · intro _
          obtain ⟨s2, hs2, hp⟩ := ih.mp h2
          exact ⟨s2, List.mem_cons_of_mem s hs2, hp⟩
        · intro _
          trivial
      · simp only [h1, h2]
        constructor
        · intro hcon
          cases hcon
        · intro hcon
          obtain ⟨s2, hs2, hp⟩ := hcon
          rcases List.mem_cons.mp hs2 with hr1 | hr2
          · subst hr1
            rw [h1] at hp
            cases hp
          · have hre : resolveAll rest = .error () := ih.mpr ⟨s2, hr2, hp⟩
            rw [h2] at hre
            cases hre

theorem resolveAll_complete {streams : List StreamEvent} {rs : List ResolvedStream}
    (h : resolveAll streams = .ok rs) :
    ∀ s ∈ streams, ∃ r ∈ rs, r.toStreamEvent = s ∧
      parseStreamDateTime s = .ok r.dateTime := by
  induction streams generalizing rs with
  | nil => simp
  | cons s rest ih =>
    rw [resolveAll] at h
    rcases h1 : parseStreamDateTime s with e | dt
    · rw [h1] at h
      cases h
    · rw [h1] at h
      rcases h2 : resolveAll rest with e | rs2
      · rw [h2] at h
        cases h
      · rw [h2] at h
        cases h
        intro s2 hs2
        rcases List.mem_cons.mp hs2 with hr1 | hr2
        · subst hr1
          exact ⟨ResolvedStream.mk s2 dt, List.mem_cons_self _ _, rfl, h1⟩
        · obtain ⟨r, hrmem, hre, hrp⟩ := ih h2 s2 hr2
          exact ⟨r, List.mem_cons_of_mem _ hrmem, hre, hrp⟩

theorem mem_getUpcomingStreams {sched : Schedule} {now : Int}
    {ups : List ResolvedStream} (h : getUpcomingStreams sched now = .ok ups) :
    ∀ r ∈ ups, r.toStreamEvent ∈ sched.streams ∧
      parseStreamDateTime r.toStreamEvent = .ok r.dateTime ∧
      ∃ t, r.dateTime = some t ∧ now < t := by
  unfold getUpcomingStreams at h
  rcases h2 : resolveAll sched.streams with e | resolved
  · rw [h2] at h
    cases h
  · rw [h2] at h
    cases h
    intro r hr
    rw [mem_sortByLt, List.mem_filter] at hr
    obtain ⟨hmem, hfil⟩ := hr
    have base := resolveAll_mem h2 r hmem
    refine ⟨base.1, base.2, ?_⟩
    rcases hdt : r.dateTime with _ | t
    · rw [hdt] at hfil
      cases hfil
    · rw [hdt] at hfil
      exact ⟨t, rfl, by simpa using hfil⟩

/-! Theorems settling the claims. -/

/-- C1 counterexample.  The claim says the refresh decision is NoOp only
when a header record is present and that any other situation performs a
full rebuild ending in a header or footer marker message.  With a desired
list of one stream and an empty channel there is no header anywhere, yet
the cycle posts exactly one message, an embed, with no clear and no marker;
and with the channel already holding the rendered stream but still no
header the cycle is a NoOp instead of the claimed rebuild. -/
theorem refresh_no_marker_counterexample :
    (refreshOps 1 (.ok sampleSchedule) now0 []).length = 1 ∧
    ((refreshOps 1 (.ok sampleSchedule) now0 []).all (fun op =>
      match op with
      | ChannelOp.postEmbed _ => true
      | _ => false)) = true ∧
    refreshOps 1 (.ok sampleSchedule) now0
      [renderMessage 1 (resolveEvent eventA) sampleStreamer sampleCategories 0] = [] := by
  decide

/-- C1 amended.  A refresh cycle deletes exactly the planned stale bot
messages and posts exactly the missing upcoming streams; it is a NoOp
precisely when both parts of the plan are empty, it never clears the
channel, and it never posts any text message, in particular no header or
footer marker. -/
theorem refresh_decision_characterization (botId : Nat) (sched : Schedule)
    (now : Int) (messages : List ChannelMessage) (plan : RefreshPlan)
    (h : refreshPlan botId sched now messages = .ok plan) :
    refreshOps botId (.ok sched) now messages =
      plan.messagesToDelete.map ChannelOp.deleteMsg ++
        plan.newStreams.map (fun r =>
          ChannelOp.postEmbed (createStreamEmbed r sched.streamer sched.categories)) ∧
    (refreshOps botId (.ok sched) now messages = [] ↔
      plan.messagesToDelete = [] ∧ plan.newStreams = []) ∧
    ChannelOp.clearAll ∉ refreshOps botId (.ok sched) now messages ∧
    (∀ s, ChannelOp.postText s ∉ refreshOps botId (.ok sched) now messages) := by
  have hops : refreshOps botId (.ok sched) now messages =
      plan.messagesToDelete.map ChannelOp.deleteMsg ++
        plan.newStreams.map (fun r =>
          ChannelOp.postEmbed (createStreamEmbed r sched.streamer sched.categories)) := by
    simp [refreshOps, h]
  refine ⟨hops, ?_, ?_, ?_⟩
  · rw [hops]
    simp
  · rw [hops]
    simp
  · intro s
    rw [hops]
    simp

/-- Witness for the amended C1 at a concrete input. -/
theorem refresh_decision_characterization_witness :
    ChannelOp.clearAll ∉ refreshOps 1 (.ok sampleSchedule) now0 [] :=
  (refresh_decision_characterization 1 sampleSchedule now0 []
    ⟨[], [resolveEvent eventA]⟩ (by decide)).2.2.1

/-- C2 counterexample.  On a July date the reference timezone is four hours
west of UTC, but the source applies its fixed five hour offset, so the
returned instant is sixty minutes later than the true instant. -/
theorem normalizer_fixed_offset_counterexample :
    parseStreamDateTime { eventA with date := str "2025-07-01", startTime := str "12:00" } =
      .ok (some 29189820) ∧
    normalizeSpec (str "2025-07-01") (str "12:00") = .ok (some 29189760) ∧
    parseStreamDateTime { eventA with date := str "2025-07-01", startTime := str "12:00" } ≠
      normalizeSpec (str "2025-07-01") (str "12:00") := by
  decide

/-- C2 amended.  The normalizer always returns the naive wall clock plus a
fixed three hundred minutes; this equals the reference-timezone instant
exactly on standard-time dates and is sixty minutes late on daylight-saving
dates, and the mapping preserves the relative ordering of any two
wall-clock moments, in particular across a spring-forward boundary. -/
theorem normalizer_offset_characterization
    (d t d2 t2 : Str) (y mo dd hr mi y2 mo2 dd2 hr2 mi2 : Int)
    (hp1 : parseIsoParts d t = some (y, mo, dd, hr, mi))
    (hp2 : parseIsoParts d2 t2 = some (y2, mo2, dd2, hr2, mi2)) :
    jsNewDateIso d t = some (daysFromCivil y mo dd * 1440 + hr * 60 + mi + 300) ∧
    (nyIsDST y mo dd (hr * 60 + mi) = false → specInstant d t = jsNewDateIso d t) ∧
    (nyIsDST y mo dd (hr * 60 + mi) = true →
      specInstant d t = (jsNewDateIso d t).map (fun v => v - 60)) ∧
    (daysFromCivil y mo dd * 1440 + hr * 60 + mi <
        daysFromCivil y2 mo2 dd2 * 1440 + hr2 * 60 + mi2 →
      ∀ u v, jsNewDateIso d t = some u → jsNewDateIso d2 t2 = some v → u < v) := by
  refine ⟨?_, ?_, ?_, ?_⟩
  · simp [jsNewDateIso, hp1, wallMinutes]
  · intro hdst
    simp [jsNewDateIso, specInstant, hp1, wallMinutes, nyOffsetMinutes, hdst]
  · intro hdst
    simp [jsNewDateIso, specInstant, hp1, wallMinutes, nyOffsetMinutes, hdst]
    omega
  · intro hlt u v hu hv
    simp [jsNewDateIso, hp1, hp2, wallMinutes] at hu hv
    omega

/-- Witness for the amended C2: the two events straddling the 2025
spring-forward Sunday resolve in the correct relative order. -/
theorem normalizer_offset_characterization_witness :
    jsNewDateIso (str "2025-03-08") (str "20:00") = some 29024700 ∧
    jsNewDateIso (str "2025-03-10") (str "20:00") = some 29027580 ∧
    (29024700 : Int) < 29027580 :=
  ⟨by decide, by decide,
    (normalizer_offset_characterization (str "2025-03-08") (str "20:00")
        (str "2025-03-10") (str "20:00") 2025 3 8 20 0 2025 3 10 20 0
        (by decide) (by decide)).2.2.2 (by decide) 29024700 29027580
      (by decide) (by decide)⟩

/-- C3 counterexample.  Renaming an event changes its visible embed but not
its key, and a refresh against a channel showing the old rendering is a
NoOp: the reconciler does not treat the content change as a change at all,
so no rebuild is forced and the stale embed stays. -/
theorem content_change_keeps_key_counterexample :
    getStreamKey eventA = getStreamKey eventARenamed ∧
    eventA.title ≠ eventARenamed.title ∧
    createStreamEmbed (resolveEvent eventA) sampleStreamer sampleCategories ≠
      createStreamEmbed (resolveEvent eventARenamed) sampleStreamer sampleCategories ∧
    refreshOps 1 (.ok { sampleSchedule with streams := [eventARenamed] }) now0
      [renderMessage 1 (resolveEvent eventA) sampleStreamer sampleCategories 0] = [] := by
  decide

/-- C3 amended.  The key of an event is derived from its date and start
time alone, so changing any combination of title, description, image and
category leaves the key, and with it the identity the reconciler compares,
unchanged; no fingerprint of the content fields exists. -/
theorem content_fields_not_in_key (e : StreamEvent) (t : Str)
    (desc img : Option Str) (cat : Str) :
    getStreamKey { e with title := t, description := desc, image := img, category := cat } =
      getStreamKey e ∧
    getStreamKey e = e.date ++ '|' :: e.startTime :=
  ⟨rfl, rfl⟩

/-- C4 counterexample.  The source pads the date components but hands the
raw time to the Date constructor, so the unpadded time nine colon five
yields an Invalid Date while the padded form yields a real instant: the two
normalizations are not identical. -/
theorem time_padding_counterexample :
    parseStreamDateTime { eventA with date := str "2025-3-4", startTime := str "9:5" } =
      .ok none ∧
    parseStreamDateTime { eventA with date := str "2025-03-04", startTime := str "09:05" } =
      .ok (some 29018285) ∧
    parseStreamDateTime { eventA with date := str "2025-3-4", startTime := str "9:5" } ≠
      parseStreamDateTime { eventA with date := str "2025-03-04", startTime := str "09:05" } := by
  decide

/-- C4 amended.  Padding-insensitivity holds for the date components: the
unpadded and padded forms of the same date normalize identically for every
time string; a single-digit time component is not padded and produces an
Invalid Date instead of the padded instant. -/
theorem date_padding_insensitive_time_not (t ttl cat : Str) (desc img : Option Str) :
    parseStreamDateTime ⟨str "2025-3-4", t, ttl, desc, img, cat⟩ =
      parseStreamDateTime ⟨str "2025-03-04", t, ttl, desc, img, cat⟩ ∧
    parseStreamDateTime ⟨str "2025-03-04", str "9:5", ttl, desc, img, cat⟩ = .ok none :=
  ⟨rfl, rfl⟩

/-- A bot message whose only verdict can be deletion accounts for the
author check: the classifier only ever orders a deletion for a message
whose author is the bot itself. -/
theorem classifyMessage_delete_bot {botId : Nat} {keys : List Str} {now : Int}
    {m : ChannelMessage} (h : classifyMessage botId keys now m = .ok .delete) :
    m.authorId = botId := by
  unfold classifyMessage at h
  by_cases hb : (m.authorId == botId) = true
  · simpa using hb
  · rw [if_neg hb] at h
    simp at h

/-- Every message the scan marks for deletion is authored by the bot. -/
theorem refreshScan_deleted_are_bot {botId : Nat} {keys : List Str} {now : Int} :
    ∀ {msgs dels : List ChannelMessage} {ks : List Str},
      refreshScan botId keys now msgs = .ok (dels, ks) →
      ∀ m ∈ dels, m.authorId = botId := by
  intro msgs
  induction msgs with
  | nil =>
    intro dels ks h
    rw [refreshScan] at h
    cases h
    simp
  | cons m rest ih =>
    intro dels ks h
    rw [refreshScan] at h
    rcases hc : classifyMessage botId keys now m with e | v
    · rw [hc] at h
      cases h
    · rw [hc] at h
      rcases hs : refreshScan botId keys now rest with e | ⟨dels2, ks2⟩
      · rw [hs] at h
        cases h
      · rw [hs] at h
        cases v with
        | skip =>
          cases h
          exact fun m2 hm2 => ih hs m2 hm2
        | delete =>
          cases h
          intro m2 hm2
          rcases List.mem_cons.mp hm2 with hr1 | hmem
          · subst hr1
            exact classifyMessage_delete_bot hc
          · exact ih hs m2 hmem
        | keep key =>
          cases h
          exact fun m2 hm2 => ih hs m2 hm2

/-- Every message a successful plan deletes is authored by the bot. -/
theorem refreshPlan_deleted_are_bot {botId : Nat} {sched : Schedule} {now : Int}
    {messages : List ChannelMessage} {plan : RefreshPlan}
    (hp : refreshPlan botId sched now messages = .ok plan) :
    ∀ m ∈ plan.messagesToDelete, m.authorId = botId := by
  unfold refreshPlan at hp
  rcases hu : getUpcomingStreams sched now with e | ups
  · rw [hu] at hp
    cases hp
  · simp only [hu] at hp
    rcases hs : refreshScan botId (ups.map fun r => getStreamKey r.toStreamEvent)
        now messages with e | ⟨dels, ks⟩
    · rw [hs] at hp
      cases hp
    · rw [hs] at hp
      cases hp
      exact fun m hm => refreshScan_deleted_are_bot hs m hm

/-- C6.  The hardreset path rebuilds unconditionally: its operations start
with a full clear whatever the fetch outcome, it consults no channel state
at all, and on a successful fetch with a non-empty upcoming list it posts
every upcoming stream in order after the clear. -/
theorem hardreset_always_rebuilds (sched : Schedule) (now : Int)
    (ups : List ResolvedStream)
    (h : getUpcomingStreams sched now = .ok ups) (hne : ups ≠ []) :
    hardResetOps (.ok sched) now =
      ChannelOp.clearAll :: ups.map (fun r =>
        ChannelOp.postEmbed (createStreamEmbed r sched.streamer sched.categories)) ∧
    (∀ fetchResult : Except Unit Schedule,
      (hardResetOps fetchResult now).head? = some ChannelOp.clearAll) := by
  constructor
  · cases ups with
    | nil => exact absurd rfl hne
    | cons u us => simp [hardResetOps, h]
  · intro fetchResult
    rfl

/-- Witness for C6 at a concrete input. -/
theorem hardreset_always_rebuilds_witness :
    hardResetOps (.ok sampleSchedule) now0 =
      ChannelOp.clearAll :: [resolveEvent eventA].map (fun r =>
        ChannelOp.postEmbed (createStreamEmbed r sampleSchedule.streamer
          sampleSchedule.categories)) :=
  (hardreset_always_rebuilds sampleSchedule now0 [resolveEvent eventA]
    (by decide) (by decide)).1

/-- A schedule containing one event whose date throws while padding. -/
def throwSchedule : Schedule :=
  { sampleSchedule with streams := [eventA, eventBadDate] }

/-- A schedule containing one event whose date merely fails to parse. -/
def mixedSchedule : Schedule :=
  { sampleSchedule with streams := [eventA, eventUnparsable] }

/-- C9 counterexample.  A single event whose date string has no dash makes
the padding step throw, which aborts the whole batch: the refresh cycle
performs no operation at all, so the well-formed remaining event is not
processed, contradicting the claim that one malformed event is merely
dropped. -/
theorem malformed_event_aborts_batch :
    getUpcomingStreams throwSchedule now0 = .error () ∧
    refreshOps 1 (.ok throwSchedule) now0 [] = [] := by
  decide

/-- C9 amended.  An event that throws while resolving (a date with fewer
than three dash-separated components) aborts the whole batch; when no
event throws, events whose date or time merely fails to parse to a future
instant are dropped while every other event is processed: each returned
stream is a genuinely upcoming schedule entry, and every schedule entry
with a valid future instant appears in the result. -/
theorem event_parse_failure_behaviour (sched : Schedule) (now : Int) :
    ((∃ s ∈ sched.streams, parseStreamDateTime s = .error ()) →
      getUpcomingStreams sched now = .error ()) ∧
    (∀ ups, getUpcomingStreams sched now = .ok ups →
      (∀ r ∈ ups, r.toStreamEvent ∈ sched.streams ∧
        parseStreamDateTime r.toStreamEvent = .ok r.dateTime ∧
        ∃ t, r.dateTime = some t ∧ now < t) ∧
      (∀ s ∈ sched.streams, ∀ t : Int,
        parseStreamDateTime s = .ok (some t) → now < t →
          ∃ r ∈ ups, r.toStreamEvent = s ∧ r.dateTime = some t)) := by
  constructor
  · intro hex
    have herr : resolveAll sched.streams = .error () := resolveAll_error_iff.mpr hex
    unfold getUpcomingStreams
    rw [herr]
  · intro ups hok
    refine ⟨mem_getUpcomingStreams hok, ?_⟩
    intro s hs t hp ht
    unfold getUpcomingStreams at hok
    rcases h2 : resolveAll sched.streams with e | resolved
    · rw [h2] at hok
      cases hok
    · rw [h2] at hok
      cases hok
      obtain ⟨r, hrmem, hre, hrp⟩ := resolveAll_complete h2 s hs
      have hdt : r.dateTime = some t := by
        rw [hp] at hrp
        injection hrp with h3
        exact h3.symm
      refine ⟨r, ?_, hre, hdt⟩
      rw [mem_sortByLt, List.mem_filter]
      refine ⟨hrmem, ?_⟩
      rw [hdt]
      simpa using ht

/-- Witness for the amended C9: with an unparsable event in the batch the
remaining well-formed event is still resolved and returned. -/
theorem event_parse_failure_behaviour_witness :
    ∃ r ∈ [resolveEvent eventA], r.toStreamEvent = eventA ∧
      r.dateTime = some 29437860 :=
  ((event_parse_failure_behaviour mixedSchedule now0).2
    [resolveEvent eventA] (by decide)).2 eventA (by decide) 29437860
    (by decide) (by decide)

/-- C10.  During a refresh pass, any message the cycle deletes is a message
authored by the bot itself: a foreign-authored message is never deleted,
whatever its content. -/
theorem only_bot_messages_deleted (botId : Nat) (fetchResult : Except Unit Schedule)
    (now : Int) (messages : List ChannelMessage) (m : ChannelMessage)
    (h : ChannelOp.deleteMsg m ∈ refreshOps botId fetchResult now messages) :
    m.authorId = botId := by
  rcases fetchResult with e | sched
  · simp [refreshOps] at h
  · rw [refreshOps] at h
    rcases hp : refreshPlan botId sched now messages with e | plan
    · rw [hp] at h
      simp at h
    · rw [hp] at h
      rw [List.mem_append] at h
      rcases h with h | h
      · rw [List.mem_map] at h
        obtain ⟨m2, hm2, heq⟩ := h
        injection heq with h3
        subst h3
        exact refreshPlan_deleted_are_bot hp m2 hm2
      · rw [List.mem_map] at h
        obtain ⟨r, hr, heq⟩ := h
        cases heq

/-- A bot-authored message without any embed, slated for deletion. -/
def junkBotMessage : ChannelMessage := ⟨1, 5, []⟩

/-- Witness for C10 at a concrete input. -/
theorem only_bot_messages_deleted_witness : junkBotMessage.authorId = 1 :=
  only_bot_messages_deleted 1 (.ok sampleSchedule) now0 [junkBotMessage]
    junkBotMessage (by decide)

/-- Every bulk call the clearChannel loop issues targets a non-empty list
of messages younger than the bulk-delete ceiling. -/
theorem clearChannelRun_bulk_young {singleOk : ChannelMessage → Bool}
    {bulkOk : List ChannelMessage → Bool} {now : Int} :
    ∀ (fuel : Nat) (ch : List ChannelMessage) (l : List ChannelMessage),
      ClearOp.bulk l ∈ (clearChannelRun singleOk bulkOk now fuel ch).1 →
      l ≠ [] ∧ ∀ m ∈ l, now - m.createdTimestamp < twoWeeksMs := by
  intro fuel
  induction fuel with
  | zero =>
    intro ch l h
    exact absurd h (List.not_mem_nil _)
  | succ n ih =>
    intro ch l h
    rw [clearChannelRun] at h
    by_cases hp : (ch.take 100).isEmpty
    · rw [if_pos hp] at h
      exact absurd h (List.not_mem_nil _)
    · rw [if_neg hp] at h
      dsimp only at h
      rw [List.mem_append, List.mem_append] at h
      rcases h with (h | h) | h
      · by_cases hr : (clearRecent now ch).isEmpty
        · rw [if_pos hr] at h
          exact absurd h (List.not_mem_nil _)
        · rw [if_neg hr] at h
          have heq := List.mem_singleton.mp h
          injection heq with h2
          subst h2
          constructor
          · intro he
            rw [he] at hr
            exact hr rfl
          · intro m hm
            rw [clearRecent, List.mem_filter] at hm
            simpa using hm.2
      · rw [List.mem_map] at h
        obtain ⟨m2, _, heq⟩ := h
        cases heq
      · exact ih _ l h

/-- Every individual delete the clearChannel loop issues targets a message
at or beyond the bulk-delete ceiling. -/
theorem clearChannelRun_single_old {singleOk : ChannelMessage → Bool}
    {bulkOk : List ChannelMessage → Bool} {now : Int} :
    ∀ (fuel : Nat) (ch : List ChannelMessage) (m : ChannelMessage),
      ClearOp.single m ∈ (clearChannelRun singleOk bulkOk now fuel ch).1 →
      twoWeeksMs ≤ now - m.createdTimestamp := by
  intro fuel
  induction fuel with
  | zero =>
    intro ch m h
    exact absurd h (List.not_mem_nil _)
  | succ n ih =>
    intro ch m h
    rw [clearChannelRun] at h
    by_cases hp : (ch.take 100).isEmpty
    · rw [if_pos hp] at h
      exact absurd h (List.not_mem_nil _)
    · rw [if_neg hp] at h
      dsimp only at h
      rw [List.mem_append, List.mem_append] at h
      rcases h with (h | h) | h
      · by_cases hr : (clearRecent now ch).isEmpty
        · rw [if_pos hr] at h
          exact absurd h (List.not_mem_nil _)
        · rw [if_neg hr] at h
          have heq := List.mem_singleton.mp h
          cases heq
      · rw [List.mem_map] at h
        obtain ⟨m2, hm2, heq⟩ := h
        injection heq with h2
        subst h2
        rw [clearOld, List.mem_filter] at hm2
        simpa using hm2.2
      · exact ih _ m h

/-- The clearChannel loop reports completion only when a fetched page of
the remaining channel is empty. -/
theorem clearChannelRun_done_empty {singleOk : ChannelMessage → Bool}
    {bulkOk : List ChannelMessage → Bool} {now : Int} :
    ∀ (fuel : Nat) (ch : List ChannelMessage),
      (clearChannelRun singleOk bulkOk now fuel ch).2.2 = true →
      ((clearChannelRun singleOk bulkOk now fuel ch).2.1.take 100).isEmpty = true := by
  intro fuel
  induction fuel with
  | zero =>
    intro ch h
    exact Bool.noConfusion h
  | succ n ih =>
    intro ch h
    rw [clearChannelRun] at h ⊢
    by_cases hp : (ch.take 100).isEmpty
    · rw [if_pos hp] at h ⊢
      exact hp
    · rw [if_neg hp] at h ⊢
      dsimp only at h ⊢
      exact ih _ h

/-- A channel whose remaining messages are all old and individually
undeletable is left unchanged by any number of further iterations: the
swallowed failures never abort the loop, the messages simply stay. -/
theorem clearChannelRun_stuck {singleOk : ChannelMessage → Bool}
    {bulkOk : List ChannelMessage → Bool} {now : Int} :
    ∀ (fuel : Nat) (ch : List ChannelMessage),
      (∀ m ∈ ch, twoWeeksMs ≤ now - m.createdTimestamp ∧ singleOk m = false) →
      (clearChannelRun singleOk bulkOk now fuel ch).2.1 = ch := by
  intro fuel
  induction fuel with
  | zero =>
    intro ch _
    rfl
  | succ n ih =>
    intro ch h
    rw [clearChannelRun]
    by_cases hp : (ch.take 100).isEmpty
    · rw [if_pos hp]
    · rw [if_neg hp]
      have hs : clearSurvivors singleOk bulkOk now ch = ch := by
        unfold clearSurvivors
        apply List.filter_eq_self.mpr
        intro m hm
        have h1 := h m hm
        have hrec : (clearRecent now ch).contains m = false := by
          by_contra hc
          rw [Bool.not_eq_false] at hc
          have hmem := List.elem_iff.mp hc
          rw [clearRecent, List.mem_filter] at hmem
          have h2 := hmem.2
          simp at h2
          omega
        rw [hrec, h1.2]
        simp
      rw [hs]
      exact ih ch h

/-- With one page of messages and successful bulk calls, one pass of the
loop deletes every young message and every deletable old message; only the
individually undeletable old messages survive, without aborting the run. -/
theorem clearChannelRun_one_page {singleOk : ChannelMessage → Bool} {now : Int}
    {ch : List ChannelMessage} (h100 : ch.length ≤ 100) :
    ∀ fuel : Nat, 1 ≤ fuel →
      (clearChannelRun singleOk (fun _ => true) now fuel ch).2.1 =
        ch.filter (fun m => twoWeeksMs ≤ now - m.createdTimestamp && !singleOk m) := by
  intro fuel hfuel
  have htake : ch.take 100 = ch := List.take_of_length_le h100
  cases fuel with
  | zero => exact absurd hfuel (by simp)
  | succ n =>
    rw [clearChannelRun]
    by_cases hp : (ch.take 100).isEmpty
    · rw [if_pos hp]
      have hnil : ch = [] := by rwa [htake, List.isEmpty_iff] at hp
      subst hnil
      rfl
    · rw [if_neg hp]
      dsimp only
      have hsv : clearSurvivors singleOk (fun _ => true) now ch =
          ch.filter (fun m => twoWeeksMs ≤ now - m.createdTimestamp && !singleOk m) := by
        unfold clearSurvivors
        apply List.filter_congr
        intro m hm
        by_cases hage : twoWeeksMs ≤ now - m.createdTimestamp
        · have hrec : (clearRecent now ch).contains m = false := by
            by_contra hc
            rw [Bool.not_eq_false] at hc
            have hmem := List.elem_iff.mp hc
            rw [clearRecent, List.mem_filter] at hmem
            have h2 := hmem.2
            simp at h2
            omega
          have hold : (clearOld now ch).contains m = true := by
            apply List.elem_iff.mpr
            rw [clearOld, htake, List.mem_filter]
            exact ⟨hm, by simpa using hage⟩
          rw [hrec, hold]
          simp [hage]
        · have hrec : (clearRecent now ch).contains m = true := by
            apply List.elem_iff.mpr
            rw [clearRecent, htake, List.mem_filter]
            refine ⟨hm, ?_⟩
            simp
            omega
          rw [hrec]
          simp [hage]
      rw [hsv]
      apply clearChannelRun_stuck
      intro m hm
      rw [List.mem_filter] at hm
      have h2 := hm.2
      simp at h2
      exact ⟨h2.1, by simpa using h2.2⟩

/-- C7.  The clearChannel loop fetches a page of up to one hundred
messages; the young subset of the page is deleted by one bulk call, each
old message individually; the loop stops on an empty fetched page and
continues otherwise; and delete failures are swallowed: with a page of
messages, every young message and every deletable old one is removed, the
undeletable ones merely survive, the run never aborting. -/
theorem clearChannel_behaviour (singleOk : ChannelMessage → Bool)
    (bulkOk : List ChannelMessage → Bool) (now : Int) (fuel : Nat)
    (ch : List ChannelMessage) :
    (∀ l, ClearOp.bulk l ∈ (clearChannelRun singleOk bulkOk now fuel ch).1 →
      l ≠ [] ∧ ∀ m ∈ l, now - m.createdTimestamp < twoWeeksMs) ∧
    (∀ m, ClearOp.single m ∈ (clearChannelRun singleOk bulkOk now fuel ch).1 →
      twoWeeksMs ≤ now - m.createdTimestamp) ∧
    ((clearChannelRun singleOk bulkOk now fuel ch).2.2 = true →
      ((clearChannelRun singleOk bulkOk now fuel ch).2.1.take 100).isEmpty = true) ∧
    ((ch.take 100).isEmpty = true →
      clearChannelRun singleOk bulkOk now (fuel + 1) ch = ([], ch, true)) ∧
    ((ch.take 100).isEmpty = false →
      (clearChannelRun singleOk bulkOk now (fuel + 1) ch).1 =
        (if (clearRecent now ch).isEmpty then []
         else [ClearOp.bulk (clearRecent now ch)]) ++
          (clearOld now ch).map ClearOp.single ++
          (clearChannelRun singleOk bulkOk now fuel
            (clearSurvivors singleOk bulkOk now ch)).1) ∧
    (ch.length ≤ 100 → 1 ≤ fuel →
      (clearChannelRun singleOk (fun _ => true) now fuel ch).2.1 =
        ch.filter (fun m => twoWeeksMs ≤ now - m.createdTimestamp && !singleOk m)) := by
  refine ⟨fun l h => clearChannelRun_bulk_young fuel ch l h,
    fun m h => clearChannelRun_single_old fuel ch m h,
    fun h => clearChannelRun_done_empty fuel ch h, ?_, ?_, ?_⟩
  · intro hp
    rw [clearChannelRun, if_pos hp]
  · intro hp
    rw [clearChannelRun, if_neg (by rw [hp]; exact Bool.false_ne_true)]
  · intro h100 hfuel
    exact clearChannelRun_one_page h100 fuel hfuel

/-- An old message the oracle refuses to delete. -/
def oldBadMessage : ChannelMessage := ⟨7, 0, []⟩

/-- An old message the oracle deletes fine. -/
def oldGoodMessage : ChannelMessage := ⟨8, 1, []⟩

/-- A message younger than the bulk-delete ceiling. -/
def youngMessage : ChannelMessage := ⟨9, 2999999000000, []⟩

/-- Witness for C7: with one undeletable old message among deletable ones
the run still removes everything else and keeps only the undeletable one. -/
theorem clearChannel_behaviour_witness :
    (clearChannelRun (fun m => m.authorId != 7) (fun _ => true) 3000000000000 2
        [oldBadMessage, oldGoodMessage, youngMessage]).2.1 = [oldBadMessage] := by
  have h := (clearChannel_behaviour (fun m => m.authorId != 7) (fun _ => true)
    3000000000000 2 [oldBadMessage, oldGoodMessage, youngMessage]).2.2.2.2.2
    (by decide) (by decide)
  rw [h]
  decide

/-- A string passing the digit check is non-empty and all digits. -/
theorem isDigits_facts {s : Str} (h : isDigits s = true) :
    s ≠ [] ∧ ∀ c ∈ s, c.isDigit = true := by
  rw [isDigits, Bool.and_eq_true] at h
  refine ⟨?_, ?_⟩
  · intro he
    rw [he] at h
    simp at h
  · intro c hc
    exact List.all_eq_true.mp h.2 c hc

/-- Successful ISO parsing forces the digit shape of both fragments. -/
theorem parseIsoParts_eq_some {dStr tStr : Str} {p : Int × Int × Int × Int × Int}
    (h : parseIsoParts dStr tStr = some p) :
    ∃ A B C H M, splitOnChar '-' dStr = [A, B, C] ∧ splitOnChar ':' tStr = [H, M] ∧
      isDigits A = true ∧ isDigits B = true ∧ isDigits C = true ∧
      isDigits H = true ∧ isDigits M = true := by
  unfold parseIsoParts at h
  split at h
  · rename_i A B C H M heq1 heq2
    split at h
    · rename_i hguard
      simp only [Bool.and_eq_true] at hguard
      exact ⟨A, B, C, H, M, heq1, heq2, hguard.1.1.1.1.1.1.1.1.1,
        hguard.1.1.1.1.1.1.1.2, hguard.1.1.1.1.1.2, hguard.1.1.1.2, hguard.1.2⟩
    · cases h
  · cases h

/-- Facts the fixed-point argument needs about an event whose date and time
parse to a valid instant: the time is pipe-free, both fields are non-empty,
the date starts with a digit and the time ends with one. -/
theorem valid_event_shape {e : StreamEvent} {t : Int}
    (h : parseStreamDateTime e = .ok (some t)) :
    '|' ∉ e.startTime ∧ e.startTime ≠ [] ∧ e.date ≠ [] ∧
    (∃ c, e.date.head? = some c ∧ c.isDigit = true) ∧
    (∃ d, e.startTime.getLast? = some d ∧ d.isDigit = true) := by
  unfold parseStreamDateTime at h
  rcases hsplit : splitOnChar '-' e.date with _ | ⟨y, ys⟩
  · exact absurd hsplit (splitOnChar_ne_nil _ _)
  · rcases ys with _ | ⟨mo, ys2⟩
    · rw [hsplit] at h
      simp at h
    · rcases ys2 with _ | ⟨dd, rest⟩
      · rw [hsplit] at h
        simp at h
      · rw [hsplit] at h
        dsimp only at h
        injection h with hiso
        rw [jsNewDateIso] at hiso
        obtain ⟨p, hp, _⟩ := Option.map_eq_some'.mp hiso
        obtain ⟨A, B, C, H, M, hsplitD, hsplitT, hA, _, _, hH, hM⟩ :=
          parseIsoParts_eq_some hp
        obtain ⟨hHne, hHdig⟩ := isDigits_facts hH
        obtain ⟨hMne, hMdig⟩ := isDigits_facts hM
        obtain ⟨hAne, hAdig⟩ := isDigits_facts hA
        have htime : e.startTime = H ++ ':' :: M := by
          have hj := joinChar_splitOnChar ':' e.startTime
          rw [hsplitT] at hj
          cases M with
          | nil => exact absurd rfl hMne
          | cons m0 ms => simpa [joinChar] using hj.symm
        have hdate : e.date = y ++ '-' :: joinChar '-' (mo :: dd :: rest) := by
          have hj := joinChar_splitOnChar '-' e.date
          rw [hsplit] at hj
          simpa [joinChar] using hj.symm
        obtain ⟨tail, htail⟩ :=
          splitOnChar_first_fragment '-' _ A [B, C] hsplitD
        have hyne : y ≠ [] := by
          intro hynil
          subst hynil
          rw [List.nil_append] at htail
          cases A with
          | nil => exact absurd rfl hAne
          | cons a0 as =>
            have ha0 : a0 = '-' := by
              have := congrArg List.head? htail
              simpa using this.symm
            have := hAdig a0 (List.mem_cons_self a0 as)
            rw [ha0] at this
            simp [Char.isDigit] at this
        refine ⟨?_, ?_, ?_, ?_, ?_⟩
        · rw [htime]
          intro hmem
          rcases List.mem_append.mp hmem with hm | hm
          · have := hHdig '|' hm
            simp [Char.isDigit] at this
          · rcases List.mem_cons.mp hm with hm2 | hm2
            · cases hm2
            · have := hMdig '|' hm2
              simp [Char.isDigit] at this
        · rw [htime]
          simp
        · rw [hdate]
          intro hnil
          exact hyne (List.append_eq_nil.mp hnil).1
        · cases y with
          | nil => exact absurd rfl hyne
          | cons c y2 =>
            refine ⟨c, ?_, ?_⟩
            · rw [hdate]
              rfl
            · cases A with
              | nil => exact absurd rfl hAne
              | cons a0 as =>
                have hca : c = a0 := by
                  have := congrArg List.head? htail
                  simpa using this
                rw [hca]
                exact hAdig a0 (List.mem_cons_self a0 as)
        · have hlast : e.startTime.getLast? = M.getLast? := by
            rw [htime]
            rw [List.getLast?_append_of_ne_nil _ (by simp : (':' :: M) ≠ [])]
            have : (':' :: M) = [':'] ++ M := rfl
            rw [this, List.getLast?_append_of_ne_nil _ hMne]
          cases hm : M.getLast? with
          | none => exact absurd (List.getLast?_eq_none_iff.mp hm) hMne
          | some dlast =>
            refine ⟨dlast, by rw [hlast, hm], ?_⟩
            exact hMdig dlast (List.mem_of_mem_getLast? hm)

/-- The stream key of a validly parsing event contains a pipe, starts with
a non-whitespace character and ends with one. -/
theorem streamKey_facts {e : StreamEvent} {t : Int}
    (h : parseStreamDateTime e = .ok (some t)) :
    '|' ∈ getStreamKey e ∧
    (∃ c, (getStreamKey e).head? = some c ∧ c.isWhitespace = false) ∧
    (∃ d, (getStreamKey e).getLast? = some d ∧ d.isWhitespace = false) := by
  obtain ⟨_, hstne, hdne, ⟨c, hc, hcd⟩, ⟨d, hd, hdd⟩⟩ := valid_event_shape h
  rw [getStreamKey]
  refine ⟨?_, ⟨c, ?_, digit_not_whitespace hcd⟩, ⟨d, ?_, digit_not_whitespace hdd⟩⟩
  · exact List.mem_append.mpr (Or.inr (List.mem_cons_self _ _))
  · rw [List.head?_append, hc]
    rfl
  · rw [List.getLast?_append_of_ne_nil _ (by simp : ('|' :: e.startTime) ≠ [])]
    have h2 : ('|' :: e.startTime) = ['|'] ++ e.startTime := rfl
    rw [h2, List.getLast?_append_of_ne_nil _ hstne]
    exact hd

/-- Reading back a rendered message recovers exactly the stream key, as
long as the display name contains no pipe. -/
theorem extract_rendered {botId : Nat} {r : ResolvedStream} {streamer : Streamer}
    {categories : List (Str × Category)} {ts : Int} {t : Int}
    (hdn : '|' ∉ streamer.displayName)
    (hparse : parseStreamDateTime r.toStreamEvent = .ok (some t)) :
    extractStreamKeyFromMessage (renderMessage botId r streamer categories ts) =
      some (getStreamKey r.toStreamEvent) := by
  obtain ⟨hpipe, ⟨c, hc, hcw⟩, ⟨d, hd, hdw⟩⟩ := streamKey_facts hparse
  have hfoot : streamer.displayName ++ ' ' :: '|' :: ' ' :: getStreamKey r.toStreamEvent =
      (streamer.displayName ++ [' ']) ++ '|' :: (' ' :: getStreamKey r.toStreamEvent) := by
    simp
  have hnp : '|' ∉ streamer.displayName ++ [' '] := by
    intro hm
    rcases List.mem_append.mp hm with hm2 | hm2
    · exact hdn hm2
    · simp at hm2
  have hsplit : splitOnChar '|'
      ((streamer.displayName ++ [' ']) ++ '|' :: (' ' :: getStreamKey r.toStreamEvent)) =
      (streamer.displayName ++ [' ']) ::
        splitOnChar '|' (' ' :: getStreamKey r.toStreamEvent) :=
    splitOnChar_append _ hnp
  have hcont : ((streamer.displayName ++ [' ']) ++
      '|' :: (' ' :: getStreamKey r.toStreamEvent)).contains '|' = true :=
    List.elem_iff.mpr (List.mem_append.mpr (Or.inr (List.mem_cons_self _ _)))
  have hlen : ¬ ((streamer.displayName ++ [' ']) ::
      splitOnChar '|' (' ' :: getStreamKey r.toStreamEvent)).length < 2 := by
    rcases hx : splitOnChar '|' (' ' :: getStreamKey r.toStreamEvent) with _ | ⟨a, as⟩
    · exact absurd hx (splitOnChar_ne_nil _ _)
    · simp
  unfold renderMessage extractStreamKeyFromMessage createStreamEmbed
  dsimp only
  rw [hfoot, hcont, hsplit]
  rw [if_neg (by decide), if_neg hlen]
  simp only [List.drop_succ_cons, List.drop_zero]
  rw [joinChar_splitOnChar]
  rw [jsTrim_space_cons hc hcw hd hdw]

/-- Parsing the key of a validly parsing pipe-free event recovers the very
instant of the event. -/
theorem parseKey_roundtrip {e : StreamEvent} {t : Int}
    (hdp : '|' ∉ e.date)
    (hparse : parseStreamDateTime e = .ok (some t)) :
    parseStreamKeyToDate (getStreamKey e) = .ok (some (some t)) := by
  obtain ⟨hsp, hstne, hdne, _, _⟩ := valid_event_shape hparse
  have hkey : splitOnChar '|' (getStreamKey e) = [e.date, e.startTime] := by
    rw [getStreamKey, splitOnChar_append _ hdp, splitOnChar_single hsp]
  unfold parseStreamDateTime at hparse
  rcases hsplit : splitOnChar '-' e.date with _ | ⟨y, ys⟩
  · exact absurd hsplit (splitOnChar_ne_nil _ _)
  · rcases ys with _ | ⟨mo, ys2⟩
    · rw [hsplit] at hparse
      simp at hparse
    · rcases ys2 with _ | ⟨dd, rest⟩
      · rw [hsplit] at hparse
        simp at hparse
      · rw [hsplit] at hparse
        dsimp only at hparse
        injection hparse with hiso
        unfold parseStreamKeyToDate
        rw [hkey]
        rw [if_neg (by simp [hdne, hstne])]
        simp only [List.getD_cons_zero, List.getD_cons_succ]
        rw [hsplit]
        dsimp only
        rw [hiso]

/-- The scan keeps a bot message whose extracted key parses to a future
instant and is among the upcoming keys. -/
theorem classify_keeps {botId : Nat} {keys : List Str} {now : Int}
    {m : ChannelMessage} {key : Str} {t : Int}
    (hb : m.authorId = botId)
    (he : extractStreamKeyFromMessage m = some key)
    (hp : parseStreamKeyToDate key = .ok (some (some t)))
    (ht : ¬t < now)
    (hk : key ∈ keys) :
    classifyMessage botId keys now m = .ok (.keep key) := by
  unfold classifyMessage
  rw [if_pos (by simp [hb])]
  simp only [he, hp]
  rw [if_neg (by simpa using ht)]
  rw [if_neg (by simp [hk])]

/-- A scan over messages each of which is kept deletes nothing and records
every kept key. -/
theorem refreshScan_all_kept {botId : Nat} {keys : List Str} {now : Int} :
    ∀ (msgs : List ChannelMessage),
      (∀ m ∈ msgs, ∃ key, classifyMessage botId keys now m = .ok (.keep key)) →
      ∃ ks, refreshScan botId keys now msgs = .ok ([], ks) ∧
        ∀ m ∈ msgs, ∀ key, classifyMessage botId keys now m = .ok (.keep key) →
          key ∈ ks := by
  intro msgs
  induction msgs with
  | nil => exact fun _ => ⟨[], rfl, by simp⟩
  | cons m rest ih =>
    intro h
    obtain ⟨key, hkey⟩ := h m (List.mem_cons_self _ _)
    obtain ⟨ks, hks, hmem⟩ := ih (fun m2 hm2 => h m2 (List.mem_cons_of_mem _ hm2))
    refine ⟨key :: ks, ?_, ?_⟩
    · rw [refreshScan, hkey, hks]
    · intro m2 hm2 key2 hk2
      rcases List.mem_cons.mp hm2 with hm2e | hm2r
      · subst hm2e
        rw [hkey] at hk2
        injection hk2 with hv
        injection hv with hkk
        rw [← hkk]
        exact List.mem_cons_self _ _
      · exact List.mem_cons_of_mem _ (hmem m2 hm2r key2 hk2)

/-- C8.  Rendering an upcoming list into the channel and immediately
re-running the refresh reconciliation yields a NoOp: no message is deleted
and none is posted.  Hypotheses: the upcoming list is the resolved output
of getUpcomingStreams, the display name carries no pipe (a pipe there would
corrupt the embedded key on read-back), and no event date carries a pipe
beyond the pipe the key adds. -/
theorem render_reread_fixed_point (botId : Nat) (sched : Schedule) (now ts : Int)
    (ups : List ResolvedStream)
    (h1 : getUpcomingStreams sched now = .ok ups)
    (hdn : '|' ∉ sched.streamer.displayName)
    (hdates : ∀ r ∈ ups, '|' ∉ StreamEvent.date r.toStreamEvent) :
    refreshOps botId (.ok sched) now
      (ups.map (fun r =>
        renderMessage botId r sched.streamer sched.categories ts)) = [] := by
  have hclass : ∀ r ∈ ups,
      classifyMessage botId (ups.map fun r2 => getStreamKey r2.toStreamEvent) now
        (renderMessage botId r sched.streamer sched.categories ts) =
        .ok (.keep (getStreamKey r.toStreamEvent)) := by
    intro r hr
    obtain ⟨_, hparse0, ⟨t, hdt, hlt⟩⟩ := mem_getUpcomingStreams h1 r hr
    rw [hdt] at hparse0
    exact classify_keeps rfl (extract_rendered hdn hparse0)
      (parseKey_roundtrip (hdates r hr) hparse0) (by omega)
      (List.mem_map_of_mem _ hr)
  have hkept : ∀ m ∈ ups.map (fun r =>
      renderMessage botId r sched.streamer sched.categories ts), ∃ key,
      classifyMessage botId (ups.map fun r2 => getStreamKey r2.toStreamEvent) now m =
        .ok (.keep key) := by
    intro m hm
    rw [List.mem_map] at hm
    obtain ⟨r, hr, hre⟩ := hm
    subst hre
    exact ⟨getStreamKey r.toStreamEvent, hclass r hr⟩
  obtain ⟨ks, hks, hmemks⟩ := refreshScan_all_kept _ hkept
  have hfilter : ups.filter (fun r =>
      !ks.contains (getStreamKey r.toStreamEvent)) = [] := by
    apply List.filter_eq_nil_iff.mpr
    intro r hr
    have hkmem : getStreamKey r.toStreamEvent ∈ ks :=
      hmemks (renderMessage botId r sched.streamer sched.categories ts)
        (List.mem_map_of_mem _ hr) (getStreamKey r.toStreamEvent) (hclass r hr)
    simp [hkmem]
  have hplan : refreshPlan botId sched now
      (ups.map (fun r => renderMessage botId r sched.streamer sched.categories ts)) =
      .ok ⟨[], []⟩ := by
    unfold refreshPlan
    simp only [h1, hks]
    rw [hfilter]
  simp [refreshOps, hplan]

/-- Witness for C8 at a concrete input. -/
theorem render_reread_fixed_point_witness :
    refreshOps 1 (.ok sampleSchedule) now0
      ([resolveEvent eventA].map (fun r =>
        renderMessage 1 r sampleSchedule.streamer sampleSchedule.categories 0)) = [] :=
  render_reread_fixed_point 1 sampleSchedule now0 0 [resolveEvent eventA]
    (by decide) (by decide) (by decide)

/-- C5 counterexample.  On the hardreset path the channel is cleared before
the schedule is fetched, so a failed fetch still leaves the channel wiped:
the previous channel state is not left untouched on every fetching path. -/
theorem hardreset_clears_despite_fetch_failure :
    hardResetOps (.error ()) now0 = [ChannelOp.clearAll] := rfl

/-- C5 amended.  A failed schedule fetch aborts the refresh cycle with no
deletion and no post, leaving the channel untouched; on the hardreset path
however the clear precedes the fetch, so a failed fetch leaves the channel
emptied with nothing reposted. -/
theorem fetch_failure_paths (botId : Nat) (now : Int) (messages : List ChannelMessage) :
    refreshOps botId (.error ()) now messages = [] ∧
    hardResetOps (.error ()) now = [ChannelOp.clearAll] :=
  ⟨rfl, rfl⟩

end StwBot
